import Mathlib

/-!
Verification of the Portfolio Construction & Analytics Engine
(`models/portfolio.py` and its callers) against its natural-language
specification.

The price data handled by the engine is embedded shallowly:

* a cell of the price matrix is `Option ℚ` (`none` is pandas `NaN`);
* a column is a ticker name paired with its list of cells, all columns of one
  matrix sharing the same (positional) date index;
* the cleaning pipeline `Portfolio._get_data` (post-concat part, lines 94-114)
  is `cleanData`;
* `Portfolio.calculate_returns` is `calculate_returns` on a row-major matrix;
* the numpy statistics used for beta in `get_summary_statistics_table`
  (`np.cov` with its sample ddof=1 default, `np.var` with its population
  ddof=0 default) are `npCov` and `npVar`;
* `Portfolio.equal_weight_portfolio` is `equal_weight_portfolio`;
* `Portfolio.create_weighted_sector_treemap` is `create_weighted_sector_treemap`,
  returning `Except PyErr` in place of raised exceptions.
-/

set_option autoImplicit false

abbrev Cell := Option ℚ

abbrev Col := String × List Cell

/-- A pandas column is entirely missing (`dropna(axis=1, how='all')` test). -/
def allNone (s : List Cell) : Bool :=
  s.all (fun x => x.isNone)

/-- Forward fill carrying the last valid observation (`DataFrame.ffill`). -/
def ffillFrom : Option ℚ → List Cell → List Cell
  | _, [] => []
  | last, none :: rest => last :: ffillFrom last rest
  | _, some v :: rest => some v :: ffillFrom (some v) rest

/-- `ffill` of one column: no valid value has been seen before the start. -/
def ffill (s : List Cell) : List Cell :=
  ffillFrom none s

/-- Number of missing cells before the first valid observation. -/
def leadingNones : List Cell → Nat
  | [] => 0
  | none :: rest => leadingNones rest + 1
  | some _ :: _ => 0

/-- One step of the running (current streak, best streak) scan that embeds
`isna().groupby((~isna()).cumsum()).cumsum().max()` from line 101 of
`models/portfolio.py`. -/
def streakStep (p : Nat × Nat) (x : Cell) : Nat × Nat :=
  match x with
  | none => (p.1 + 1, max p.2 (p.1 + 1))
  | some _ => (0, p.2)

/-- Longest run of consecutive missing cells in a column. -/
def maxNanStreak (s : List Cell) : Nat :=
  (s.foldl streakStep (0, 0)).2

/-- Line 96: `data.dropna(axis=1, how='all')`. -/
def dropAllNanCols (cols : List Col) : List Col :=
  cols.filter (fun c => !allNone c.2)

/-- Line 97 (and the per-column refill of line 106): `data.ffill()`. -/
def ffillCols (cols : List Col) : List Col :=
  cols.map (fun c => (c.1, ffill c.2))

/-- Lines 100-103: drop the columns whose longest remaining missing-data
streak is at least 4. -/
def dropStreakCols (cols : List Col) : List Col :=
  cols.filter (fun c => maxNanStreak c.2 < 4)

/-- Lines 94-106 of `Portfolio._get_data`: drop the all-missing columns,
forward-fill, drop the columns with a remaining streak of 4 or more missing
cells, and forward-fill the kept columns again. -/
def cleanCols (cols : List Col) : List Col :=
  ffillCols (dropStreakCols (ffillCols (dropAllNanCols cols)))

/-- Row assignment `data.iloc[0] = data.iloc[1]` restricted to one column:
the first cell is replaced by the second one. -/
def replaceHead (s : List Cell) : List Cell :=
  match s with
  | _ :: y :: rest => y :: y :: rest
  | s => s

/-- Line 109 condition `pd.isna(data.iloc[0]).any()`. -/
def firstRowHasNan (cols : List Col) : Bool :=
  cols.any (fun c => c.2.head? == some none)

/-- Lines 94-110 of `Portfolio._get_data` on the concatenated, date-sorted
matrix; `n` is the number of rows (`len(data)`). -/
def cleanData (n : Nat) (cols : List Col) : List Col :=
  if firstRowHasNan (cleanCols cols) = true ∧ 1 < n then
    (cleanCols cols).map (fun c => (c.1, replaceHead c.2))
  else cleanCols cols

/-- One cell of `DataFrame.pct_change()`: `price[t]/price[t-1] - 1`, missing
whenever either operand is missing. -/
def pctCell (prev cur : Cell) : Cell :=
  match prev, cur with
  | some b, some a => some (a / b - 1)
  | _, _ => none

/-- Rows after the first of `pct_change`, each computed from its predecessor. -/
def pctChangeGo : List Cell → List (List Cell) → List (List Cell)
  | _, [] => []
  | prev, r :: rest => List.zipWith pctCell prev r :: pctChangeGo r rest

/-- `DataFrame.pct_change()` on a row-major matrix: the first row has no
predecessor and is entirely missing. -/
def pctChangeRows : List (List Cell) → List (List Cell)
  | [] => []
  | r :: rest => r.map (fun _ => none) :: pctChangeGo r rest

/-- `DataFrame.dropna()`: keep the rows with no missing cell. -/
def dropnaRows (m : List (List Cell)) : List (List Cell) :=
  m.filter (fun r => r.all (fun x => x.isSome))

/-- `Portfolio.calculate_returns`: `self.data.pct_change().dropna()`. -/
def calculate_returns (m : List (List Cell)) : List (List Cell) :=
  dropnaRows (pctChangeRows m)

/-- `np.mean` of a series. -/
def npMean (xs : List ℚ) : ℚ :=
  xs.sum / (xs.length : ℚ)

/-- `np.var` of a series: population variance, numpy default `ddof=0`. -/
def npVar (xs : List ℚ) : ℚ :=
  ((xs.map (fun x => (x - npMean xs) ^ 2)).sum) / (xs.length : ℚ)

/-- The off-diagonal entry `np.cov(xs, ys)[0][1]`: sample covariance, numpy
default `ddof=1`, denominator `n - 1`. -/
def npCov (xs ys : List ℚ) : ℚ :=
  (((xs.zip ys).map (fun p => (p.1 - npMean xs) * (p.2 - npMean ys))).sum) /
    ((xs.length : ℚ) - 1)

/-- Beta as computed at lines 342-345 of `models/portfolio.py`:
`cov(portfolio, benchmark) / var(benchmark)`, 0 when the variance is 0. -/
def betaOf (port bench : List ℚ) : ℚ :=
  if npVar bench = 0 then 0 else npCov port bench / npVar bench

/-- `Portfolio.equal_weight_portfolio`: `dict(zip(tickers, ones(n)/n))`. -/
def equal_weight_portfolio (tickers : List String) : List (String × ℚ) :=
  tickers.map (fun t => (t, 1 / (tickers.length : ℚ)))

/-- Lookup of one ticker in a weight mapping. -/
def lookupWeight (ws : List (String × ℚ)) (t : String) : Option ℚ :=
  (ws.find? (fun p => p.1 == t)).map Prod.snd

inductive PyErr where
  | valueError
  | keyError
deriving DecidableEq

/-- One row of the treemap data frame built by
`Portfolio.create_weighted_sector_treemap`: sector-level rows carry
`weightN = none` (pandas `Weight_n` is `NaN` there, the discriminator used by
`format_text`), stock-level rows carry their sector-normalized percentage. -/
structure TreemapRow where
  name : String
  parent : String
  weight : ℚ
  weightN : Option ℚ
deriving DecidableEq

/-- First matching `sector` entry of the reference table
(`sector_data_raw.loc[sector_data_raw['Ticker'] == ticker, 'sector'].values[0]`);
`none` embeds the `IndexError` that the code catches. -/
def lookupSector (table : List (String × String)) (t : String) : Option String :=
  (table.find? (fun p => p.1 == t)).map Prod.snd

/-- `weights.get(ticker, 0)`. -/
def weightsGet (ws : List (String × ℚ)) (t : String) : ℚ :=
  ((ws.find? (fun p => p.1 == t)).map Prod.snd).getD 0

/-- The `sector_data` list built by the per-ticker loop: tickers whose sector
lookup fails are skipped (the exception is caught and printed), tickers whose
weight is below 0.01% are not appended. -/
def stockRowsRaw (tickers : List String) (table : List (String × String))
    (ws : List (String × ℚ)) : List (String × String × ℚ) :=
  tickers.filterMap (fun t =>
    match lookupSector table t with
    | none => none
    | some s =>
      if 1 / 10000 ≤ weightsGet ws t then some (t, s, weightsGet ws t) else none)

/-- Total weight of one sector group (`df.groupby('Parent')['Weight'].sum()`). -/
def sectorSum (rows : List (String × String × ℚ)) (s : String) : ℚ :=
  ((rows.filter (fun r => r.2.1 == s)).map (fun r => r.2.2)).sum

/-- The distinct sector keys of the grouped frame, in order of first
appearance. -/
def sectorKeys (rows : List (String × String × ℚ)) : List String :=
  (rows.map (fun r => r.2.1)).foldl (fun acc x => if x ∈ acc then acc else acc ++ [x]) []

/-- Sector-level rows: summed weights, filtered at the 0.01% materiality
threshold, re-parented to the `"Portfolio"` root. -/
def sectorRows (rows : List (String × String × ℚ)) : List TreemapRow :=
  (sectorKeys rows).filterMap (fun s =>
    if 1 / 10000 ≤ sectorSum rows s then
      some ⟨s, "Portfolio", sectorSum rows s, none⟩
    else none)

/-- Stock-level rows annotated with `Weight_n`, the weight normalized to 100%
within the stock's sector. -/
def stockRows (rows : List (String × String × ℚ)) : List TreemapRow :=
  rows.map (fun r => ⟨r.1, r.2.1, r.2.2, some (100 * r.2.2 / sectorSum rows r.2.1)⟩)

/-- `Portfolio.create_weighted_sector_treemap` up to the treemap data frame:
raises `ValueError` when a working-set ticker has no weight (line 396); with an
empty `sector_data` list the `groupby('Parent')` on a column-less frame raises
`KeyError`; otherwise the combined sector + stock rows are produced. -/
def create_weighted_sector_treemap (tickers : List String)
    (table : List (String × String)) (ws : List (String × ℚ)) :
    Except PyErr (List TreemapRow) :=
  if tickers.any (fun t => !(ws.any (fun p => p.1 == t))) then
    .error .valueError
  else if (stockRowsRaw tickers table ws).isEmpty then
    .error .keyError
  else
    .ok (sectorRows (stockRowsRaw tickers table ws) ++
      stockRows (stockRowsRaw tickers table ws))

/-- The rows of a successful treemap result. -/
def okRows (r : Except PyErr (List TreemapRow)) : List TreemapRow :=
  match r with
  | .ok rows => rows
  | .error _ => []

/-- Computable inverse of a square rational matrix with nonzero determinant. -/
def blInv {k : ℕ} (A : Matrix (Fin k) (Fin k) ℚ) : Matrix (Fin k) (Fin k) ℚ :=
  (A.det)⁻¹ • A.adjugate

/-- Modelled from the spec: the Black-Litterman uncertainty combination
`P·τΣ·Pᵗ + Ω` whose inverse the adjustment needs (spec §4.3); the method
`black_litterman_model` is invoked by `services/optimize_portfolio.py` and
`models/terminal2.py` but defined nowhere in the repository. -/
def blUncertainty {n k : ℕ} (τ : ℚ) (S : Matrix (Fin n) (Fin n) ℚ)
    (P : Matrix (Fin k) (Fin n) ℚ) (Ω : Matrix (Fin k) (Fin k) ℚ) :
    Matrix (Fin k) (Fin k) ℚ :=
  τ • (P * S * P.transpose) + Ω

/-- Modelled from the spec: the adjusted mean-return vector
`μ' = μ + τΣPᵗ·(PτΣPᵗ + Ω)⁻¹·(Q − Pπ)` with equilibrium returns `π = τ·Σ·μ`
(spec §4.3, BlackLitterman). -/
def blAdjusted {n k : ℕ} (τ : ℚ) (S : Matrix (Fin n) (Fin n) ℚ)
    (μ : Fin n → ℚ) (P : Matrix (Fin k) (Fin n) ℚ) (Q : Fin k → ℚ)
    (Ω : Matrix (Fin k) (Fin k) ℚ) : Fin n → ℚ :=
  let π := τ • S.mulVec μ
  μ + (τ • (S * P.transpose)).mulVec
        ((blInv (blUncertainty τ S P Ω)).mulVec (Q - P.mulVec π))

/-- Modelled from the spec: `black_litterman_model` (missing from the
repository, called by `services/optimize_portfolio.py` line 26) adjusts the
mean-return vector and feeds the result to the MaximumSharpe optimization,
abstracted here as `solver`. -/
def black_litterman_model {n k : ℕ}
    (solver : (Fin n → ℚ) → Fin n → ℚ) (μ : Fin n → ℚ)
    (S : Matrix (Fin n) (Fin n) ℚ) (P : Matrix (Fin k) (Fin n) ℚ)
    (Q : Fin k → ℚ) (τ : ℚ) (Ω : Matrix (Fin k) (Fin k) ℚ) : Fin n → ℚ :=
  solver (blAdjusted τ S μ P Q Ω)

theorem ffillFrom_length (last : Option ℚ) (s : List Cell) :
    (ffillFrom last s).length = s.length := by
  induction s generalizing last with
  | nil => rfl
  | cons x rest ih =>
    cases x <;> simp [ffillFrom, ih]

theorem ffill_length (s : List Cell) : (ffill s).length = s.length :=
  ffillFrom_length none s

theorem ffillFrom_some_all_isSome (v : ℚ) (s : List Cell) :
    (ffillFrom (some v) s).all (fun x => x.isSome) = true := by
  induction s generalizing v with
  | nil => rfl
  | cons x rest ih =>
    cases x <;> simp [ffillFrom, ih]

theorem ffillFrom_of_all_isSome (s : List Cell)
    (h : s.all (fun x => x.isSome) = true) (last : Option ℚ) :
    ffillFrom last s = s := by
  induction s generalizing last with
  | nil => rfl
  | cons x rest ih =>
    cases x with
    | none => simp at h
    | some v =>
      simp only [List.all_cons, Bool.and_eq_true] at h
      simp [ffillFrom, ih h.2]

theorem ffill_structure (s : List Cell) :
    ∃ t : List Cell, ffill s = List.replicate (leadingNones s) none ++ t ∧
      t.all (fun x => x.isSome) = true := by
  induction s with
  | nil => exact ⟨[], rfl, rfl⟩
  | cons x rest ih =>
    cases x with
    | none =>
      obtain ⟨t, ht, hall⟩ := ih
      refine ⟨t, ?_, hall⟩
      simp only [ffill, ffillFrom, leadingNones, List.replicate_succ, List.cons_append]
      exact congrArg (none :: ·) ht
    | some v =>
      refine ⟨some v :: ffillFrom (some v) rest, ?_, ?_⟩
      · simp [ffill, ffillFrom, leadingNones]
      · simpa [List.all_cons] using ffillFrom_some_all_isSome v rest

theorem foldl_streak_replicate (k c b : ℕ) (hcb : c ≤ b) :
    (List.replicate k (none : Cell)).foldl streakStep (c, b) = (c + k, max b (c + k)) := by
  induction k generalizing c b with
  | zero => simp [Nat.max_eq_left hcb]
  | succ k ih =>
    rw [List.replicate_succ, List.foldl_cons]
    have h1 : streakStep (c, b) none = (c + 1, max b (c + 1)) := rfl
    rw [h1, ih (c + 1) (max b (c + 1)) (le_max_right _ _)]
    simp only [Prod.mk.injEq]
    omega

theorem foldl_streak_all_some (t : List Cell)
    (h : t.all (fun x => x.isSome) = true) (c b : ℕ) :
    (t.foldl streakStep (c, b)).2 = b := by
  induction t generalizing c b with
  | nil => rfl
  | cons x rest ih =>
    cases x with
    | none => simp at h
    | some v =>
      simp only [List.all_cons, Bool.and_eq_true] at h
      simpa [streakStep] using ih h.2 0 b

theorem maxNanStreak_replicate_append (k : ℕ) (t : List Cell)
    (h : t.all (fun x => x.isSome) = true) :
    maxNanStreak (List.replicate k none ++ t) = k := by
  unfold maxNanStreak
  rw [List.foldl_append, foldl_streak_replicate k 0 0 le_rfl]
  simpa using foldl_streak_all_some t h k (max 0 (0 + k))

theorem maxNanStreak_ffill (s : List Cell) :
    maxNanStreak (ffill s) = leadingNones s := by
  obtain ⟨t, ht, hall⟩ := ffill_structure s
  rw [ht, maxNanStreak_replicate_append _ _ hall]

theorem ffillFrom_replicate_append (k : ℕ) (t : List Cell) :
    ffillFrom none (List.replicate k none ++ t) =
      List.replicate k none ++ ffillFrom none t := by
  induction k with
  | zero => rfl
  | succ k ih =>
    simp only [List.replicate_succ, List.cons_append, ffillFrom]
    exact congrArg (none :: ·) ih

theorem ffill_idem (s : List Cell) : ffill (ffill s) = ffill s := by
  obtain ⟨t, ht, hall⟩ := ffill_structure s
  rw [ht]
  unfold ffill
  rw [ffillFrom_replicate_append, ffillFrom_of_all_isSome t hall]

theorem leadingNones_lt_length (s : List Cell) (h : allNone s = false) :
    leadingNones s < s.length := by
  induction s with
  | nil => simp [allNone] at h
  | cons x rest ih =>
    cases x with
    | none =>
      simp only [allNone, List.all_cons, Option.isNone_none, Bool.true_and] at h
      have := ih h
      simp only [leadingNones, List.length_cons]
      omega
    | some v => simp [leadingNones]

theorem cleanCols_mem_iff (cols : List Col) (c : Col) :
    c ∈ cleanCols cols ↔
      ∃ s : List Cell, (c.1, s) ∈ cols ∧ allNone s = false ∧
        leadingNones s < 4 ∧ c.2 = ffill s := by
  simp only [cleanCols, ffillCols, dropStreakCols, dropAllNanCols, List.mem_map,
    List.mem_filter, Bool.not_eq_true', decide_eq_true_eq]
  constructor
  · rintro ⟨b, ⟨⟨a, ⟨ha, hnone⟩, rfl⟩, hstreak⟩, rfl⟩
    refine ⟨a.2, ha, hnone, ?_, by rw [ffill_idem]⟩
    rwa [maxNanStreak_ffill] at hstreak
  · rintro ⟨s, hmem, hnone, hlt, hval⟩
    refine ⟨(c.1, ffill s), ⟨⟨(c.1, s), ⟨hmem, hnone⟩, rfl⟩, ?_⟩, ?_⟩
    · rwa [maxNanStreak_ffill]
    · cases c with
      | mk t v =>
        simp only at hval
        rw [hval, ffill_idem]

theorem cleanData_map_fst (n : ℕ) (cols : List Col) :
    (cleanData n cols).map Prod.fst = (cleanCols cols).map Prod.fst := by
  unfold cleanData
  split
  · rw [List.map_map]
    rfl
  · rfl

theorem keys_nodup_mem_eq {l : List Col} {a b : Col}
    (hnd : (l.map Prod.fst).Nodup) (ha : a ∈ l) (hb : b ∈ l) (h : a.1 = b.1) :
    a = b := by
  induction l with
  | nil => cases ha
  | cons c t ih =>
    simp only [List.map_cons, List.nodup_cons] at hnd
    cases ha with
    | head =>
      cases hb with
      | head => rfl
      | tail _ hb =>
        exact absurd (h ▸ List.mem_map_of_mem Prod.fst hb) hnd.1
    | tail _ ha =>
      cases hb with
      | head =>
        exact absurd (h ▸ List.mem_map_of_mem Prod.fst ha) hnd.1
      | tail _ hb => exact ih hnd.2 ha hb

/-- C2, amended: during cleaning a ticker whose series has at least one valid
observation is dropped exactly when the run of missing values *before its
first valid observation* has length 4 or more; interior gaps are patched by
the forward fill of line 97 before the streak test of line 101 ever runs, so
they never cause a drop. -/
theorem claim_C2_amended (n : ℕ) (cols : List Col) (t : String) (s : List Cell)
    (hnd : (cols.map Prod.fst).Nodup) (hmem : (t, s) ∈ cols)
    (hvalid : allNone s = false) :
    t ∈ (cleanData n cols).map Prod.fst ↔ leadingNones s < 4 := by
  rw [cleanData_map_fst]
  constructor
  · intro h
    obtain ⟨c, hc, hct⟩ := List.mem_map.mp h
    obtain ⟨s2, hmem2, _, hlt2, _⟩ := (cleanCols_mem_iff cols c).mp hc
    have : (c.1, s2) = (t, s) := keys_nodup_mem_eq hnd hmem2 hmem hct
    have hs : s2 = s := congrArg Prod.snd this
    rwa [hs] at hlt2
  · intro h
    refine List.mem_map.mpr ⟨(t, ffill s), ?_, rfl⟩
    exact (cleanCols_mem_iff cols (t, ffill s)).mpr ⟨s, hmem, hvalid, h, rfl⟩

/-- The price matrix used to refute C2: ticker `"A"` has a 4-day interior gap. -/
def exC2 : List Col :=
  [("A", [some 100, none, none, none, none, some 105])]

/-- C2, counterexample: `"A"` has a run of 4 consecutive missing trading days,
yet it survives cleaning — the forward fill of line 97 patches the gap before
the streak check, so the column is not dropped as the claim requires. -/
theorem claim_C2_counterexample :
    maxNanStreak [some (100 : ℚ), none, none, none, none, some 105] = 4 ∧
    (cleanData 6 exC2).map Prod.fst = ["A"] :=
  ⟨rfl, rfl⟩

theorem claim_C2_witness :
    ("A" ∈ (cleanData 6 exC2).map Prod.fst ↔
      leadingNones [some (100 : ℚ), none, none, none, none, some 105] < 4) :=
  claim_C2_amended 6 exC2 "A" [some (100 : ℚ), none, none, none, none, some 105]
    (by decide) (by decide) (by decide)

theorem cleanCols_col_structure (cols : List Col) (c : Col) (hc : c ∈ cleanCols cols) :
    ∃ (s : List Cell) (t : List Cell), (c.1, s) ∈ cols ∧ allNone s = false ∧
      leadingNones s < 4 ∧ c.2 = List.replicate (leadingNones s) none ++ t ∧
      t.all (fun x => x.isSome) = true ∧ c.2.length = s.length := by
  obtain ⟨s, hmem, hnone, hlt, hval⟩ := (cleanCols_mem_iff cols c).mp hc
  obtain ⟨t, ht, hall⟩ := ffill_structure s
  exact ⟨s, t, hmem, hnone, hlt, by rw [hval, ht], hall, by rw [hval, ffill_length]⟩

theorem replaceHead_length (l : List Cell) : (replaceHead l).length = l.length := by
  cases l with
  | nil => rfl
  | cons x rest =>
    cases rest with
    | nil => rfl
    | cons y rest2 => rfl

theorem firstRowHasNan_of_mem {cols : List Col} {c : Col} (hc : c ∈ cleanCols cols)
    (hhead : c.2.head? = some none) : firstRowHasNan (cleanCols cols) = true := by
  refine List.any_eq_true.mpr ⟨c, hc, ?_⟩
  simp [hhead]

theorem all_isSome_any {l : List Cell} (hall : l.all (fun x => x.isSome) = true)
    (hne : l ≠ []) : l.any (fun x => x.isSome) = true := by
  cases l with
  | nil => exact absurd rfl hne
  | cons x rest =>
    simp only [List.all_cons, Bool.and_eq_true] at hall
    simp [List.any_cons, hall.1]

/-- C3, amended: the cleaning invariant holds only when every input series
with a valid observation has at most one missing value before its first valid
observation (or at least four, in which case the column is dropped): then no
cell of the cleaned matrix is missing, every surviving column keeps the full
shared date index of `n` rows, and every surviving column has a valid
observation. A series with two or three leading missing values survives
cleaning with its `NaN` cells intact (the line 108-110 patch only copies the
second row into the first). -/
theorem claim_C3_amended (n : ℕ) (cols : List Col)
    (hn : 0 < n) (hlen : ∀ c ∈ cols, c.2.length = n)
    (hgap : ∀ c ∈ cols, allNone c.2 = false →
      leadingNones c.2 ≤ 1 ∨ 4 ≤ leadingNones c.2) :
    (cleanData n cols).all
      (fun c => c.2.all (fun x => x.isSome) && (c.2.length == n) &&
        c.2.any (fun x => x.isSome)) = true := by
  rw [List.all_eq_true]
  intro c hc
  simp only [Bool.and_eq_true, beq_iff_eq]
  unfold cleanData at hc
  split at hc
  case isTrue hif =>
    obtain ⟨b, hb, hbc⟩ := List.mem_map.mp hc
    obtain ⟨s, t, hmem, hnone, hlt4, hstruct, hall, hblen⟩ :=
      cleanCols_col_structure cols b hb
    have hsn : s.length = n := hlen (b.1, s) hmem
    have hk1 : leadingNones s ≤ 1 := by
      have h2 : leadingNones s ≤ 1 ∨ 4 ≤ leadingNones s := hgap (b.1, s) hmem hnone
      rcases h2 with h | h
      · exact h
      · omega
    have hn2 : 2 ≤ b.2.length := by
      rw [hblen, hsn]; exact hif.2
    have hcall : (replaceHead b.2).all (fun x => x.isSome) = true := by
      interval_cases h : leadingNones s
      · rw [hstruct] at hn2 ⊢
        simp only [h, List.replicate_zero, List.nil_append] at hn2 ⊢
        cases t with
        | nil => simp at hn2
        | cons x rest =>
          cases rest with
          | nil => simp at hn2
          | cons y rest2 =>
            simp only [List.all_cons, Bool.and_eq_true] at hall
            simp [replaceHead, List.all_cons, hall.2.1, hall.2.2]
      · rw [hstruct] at hn2 ⊢
        simp only [h, List.replicate_succ, List.replicate_zero, List.nil_append,
          List.cons_append, List.length_cons] at hn2 ⊢
        cases t with
        | nil => simp at hn2
        | cons y rest2 =>
          simp only [List.all_cons, Bool.and_eq_true] at hall
          simp [replaceHead, List.all_cons, hall.1, hall.2]
    have hclen : (replaceHead b.2).length = n := by
      rw [replaceHead_length, hblen, hsn]
    rw [← hbc]
    refine ⟨⟨hcall, hclen⟩, ?_⟩
    refine all_isSome_any hcall ?_
    intro hnil
    have hnil2 : replaceHead b.2 = [] := hnil
    rw [hnil2] at hclen
    simp only [List.length_nil] at hclen
    omega
  case isFalse hif =>
    obtain ⟨s, t, hmem, hnone, hlt4, hstruct, hall, hblen⟩ :=
      cleanCols_col_structure cols c hc
    have hsn : s.length = n := hlen (c.1, s) hmem
    have hk1 : leadingNones s ≤ 1 := by
      have h2 : leadingNones s ≤ 1 ∨ 4 ≤ leadingNones s := hgap (c.1, s) hmem hnone
      rcases h2 with h | h
      · exact h
      · omega
    have hk0 : leadingNones s = 0 := by
      by_contra hne
      have h1 : leadingNones s = 1 := by omega
      have hhead : c.2.head? = some none := by
        rw [hstruct, h1]
        rfl
      have hfr := firstRowHasNan_of_mem hc hhead
      have hlt : leadingNones s < s.length := leadingNones_lt_length s hnone
      have : ¬ 1 < n := fun h => hif ⟨hfr, h⟩
      omega
    have hcall : c.2.all (fun x => x.isSome) = true := by
      rw [hstruct, hk0]
      simpa using hall
    have hclen : c.2.length = n := by rw [hblen, hsn]
    refine ⟨⟨hcall, hclen⟩, ?_⟩
    refine all_isSome_any hcall ?_
    intro hnil
    rw [hnil] at hclen
    simp only [List.length_nil] at hclen
    omega

/-- The price matrix used to refute C3: ticker `"B"` starts two trading days
late. -/
def exC3 : List Col :=
  [("B", [none, none, some 50, some 51])]

/-- C3, counterexample: after cleaning, the matrix still contains missing
cells — the column `"B"` (two leading missing values, streak below the drop
threshold) survives with both `NaN`s intact, violating the claimed no-`NaN`
invariant. -/
theorem claim_C3_counterexample :
    cleanData 4 exC3 = [("B", [none, none, some 50, some 51])] ∧
    ((cleanData 4 exC3).map Prod.snd).any (fun s => s.any (fun x => x.isNone)) = true :=
  ⟨rfl, rfl⟩

/-- Witness matrix for the amended C3: one complete column, one column with a
single leading missing value. -/
def exC3w : List Col :=
  [("A", [some 1, some 2, some 3]), ("B", [none, some 5, some 6])]

theorem claim_C3_witness :
    (cleanData 3 exC3w).all
      (fun c => c.2.all (fun x => x.isSome) && (c.2.length == 3) &&
        c.2.any (fun x => x.isSome)) = true :=
  claim_C3_amended 3 exC3w (by decide) (by decide) (by decide)

theorem cleanCols_length {n : ℕ} {cols : List Col}
    (hlen : ∀ c ∈ cols, c.2.length = n) :
    ∀ c ∈ cleanCols cols, c.2.length = n := by
  intro c hc
  obtain ⟨s, t, hmem, _, _, _, _, hblen⟩ := cleanCols_col_structure cols c hc
  rw [hblen]
  exact hlen (c.1, s) hmem

theorem replaceHead_tail (l : List Cell) : (replaceHead l).tail = l.tail := by
  cases l with
  | nil => rfl
  | cons x rest =>
    cases rest with
    | nil => rfl
    | cons y rest2 => rfl

/-- C8, amended: when the first row of the matrix still has a missing value
for some surviving column (and the matrix has more than one row), the
assignment `data.iloc[0] = data.iloc[1]` replaces the *entire* first row with
the second row — cells of the first row that already held a valid price are
overwritten too, so afterwards the first row coincides with the second row in
every column, while all rows after the first are untouched. -/
theorem claim_C8_amended (n : ℕ) (cols : List Col)
    (htrig : firstRowHasNan (cleanCols cols) = true) (hn : 1 < n)
    (hlen : ∀ c ∈ cols, c.2.length = n) :
    ((cleanData n cols).all (fun c => c.2[0]? == c.2[1]?) = true) ∧
    ((cleanData n cols).map (fun c => (c.1, c.2.tail)) =
      (cleanCols cols).map (fun c => (c.1, c.2.tail))) := by
  have hdef : cleanData n cols = (cleanCols cols).map (fun c => (c.1, replaceHead c.2)) := by
    unfold cleanData
    rw [if_pos ⟨htrig, hn⟩]
  constructor
  · rw [hdef, List.all_eq_true]
    rintro c hc
    obtain ⟨b, hb, rfl⟩ := List.mem_map.mp hc
    have hblen : b.2.length = n := cleanCols_length hlen b hb
    have h2 : 2 ≤ b.2.length := by omega
    rcases b with ⟨t, l⟩
    cases l with
    | nil => simp at h2
    | cons x rest =>
      cases rest with
      | nil => simp at h2
      | cons y rest2 => simp [replaceHead]
  · rw [hdef, List.map_map]
    have hf : ((fun c : Col => (c.1, c.2.tail)) ∘ fun c : Col => (c.1, replaceHead c.2)) =
        (fun c : Col => (c.1, c.2.tail)) := by
      funext c
      simp only [Function.comp]
      rw [replaceHead_tail]
    rw [hf]

/-- The price matrix used to refute C8: column `"A"` is complete, column
`"B"` starts one trading day late, so the first row is patched. -/
def exC8 : List Col :=
  [("A", [some 100, some 101, some 102]), ("B", [none, some 50, some 51])]

/-- C8, counterexample: the first-row patch overwrites the valid first price
of column `"A"` (100 becomes 101, the second row's value) instead of filling
only the missing cell of column `"B"` as the claim states. -/
theorem claim_C8_counterexample :
    cleanData 3 exC8 =
      [("A", [some 101, some 101, some 102]), ("B", [some 50, some 50, some 51])] ∧
    ((101 : ℚ) ≠ 100) :=
  ⟨rfl, by norm_num⟩

theorem claim_C8_witness :
    ((cleanData 3 exC8).all (fun c => c.2[0]? == c.2[1]?) = true) ∧
    ((cleanData 3 exC8).map (fun c => (c.1, c.2.tail)) =
      (cleanCols exC8).map (fun c => (c.1, c.2.tail))) :=
  claim_C8_amended 3 exC8 (by decide) (by decide) (by decide)

theorem zipWith_pctCell_all_isSome (a b : List Cell)
    (ha : a.all (fun x => x.isSome) = true) (hb : b.all (fun x => x.isSome) = true) :
    (List.zipWith pctCell a b).all (fun x => x.isSome) = true := by
  induction a generalizing b with
  | nil => rfl
  | cons x resta ih =>
    cases b with
    | nil => rfl
    | cons y restb =>
      simp only [List.all_cons, Bool.and_eq_true] at ha hb
      cases x with
      | none => simp at ha
      | some vx =>
        cases y with
        | none => simp at hb
        | some vy =>
          simp only [List.zipWith_cons_cons, List.all_cons, Bool.and_eq_true]
          exact ⟨rfl, ih restb ha.2 hb.2⟩

theorem pctChangeGo_all_isSome (rest : List (List Cell)) (prev : List Cell)
    (hprev : prev.all (fun x => x.isSome) = true)
    (hrest : ∀ r ∈ rest, r.all (fun x => x.isSome) = true) :
    ∀ row ∈ pctChangeGo prev rest, row.all (fun x => x.isSome) = true := by
  induction rest generalizing prev with
  | nil => intro row h; cases h
  | cons r rs ih =>
    intro row hrow
    simp only [pctChangeGo, List.mem_cons] at hrow
    rcases hrow with rfl | hrow
    · exact zipWith_pctCell_all_isSome prev r hprev (hrest r (List.mem_cons_self r rs))
    · exact ih r (hrest r (List.mem_cons_self r rs))
        (fun q hq => hrest q (List.mem_cons_of_mem r hq)) row hrow

theorem pctChangeGo_length (rest : List (List Cell)) (prev : List Cell) :
    (pctChangeGo prev rest).length = rest.length := by
  induction rest generalizing prev with
  | nil => rfl
  | cons r rs ih => simp [pctChangeGo, ih]

/-- C7: on a price matrix satisfying the PriceMatrix invariants (at least one
date, at least one ticker, no missing cell, rectangular), the return matrix
`calculate_returns` is the price matrix's `pct_change` with exactly its first
row dropped — one row fewer than the price matrix. -/
theorem claim_C7 (m : List (List Cell)) (k : ℕ)
    (hne : m ≠ []) (hk : 0 < k) (hrect : ∀ r ∈ m, r.length = k)
    (hclean : ∀ r ∈ m, r.all (fun x => x.isSome) = true) :
    calculate_returns m = (pctChangeRows m).tail ∧
    (calculate_returns m).length + 1 = m.length := by
  cases m with
  | nil => exact absurd rfl hne
  | cons r0 rest =>
    have hr0 : r0.length = k := hrect r0 (List.mem_cons_self r0 rest)
    have hr0ne : r0 ≠ [] := by
      intro h
      rw [h, List.length_nil] at hr0
      omega
    have hgo : ∀ row ∈ pctChangeGo r0 rest, row.all (fun x => x.isSome) = true :=
      pctChangeGo_all_isSome rest r0 (hclean r0 (List.mem_cons_self r0 rest))
        (fun q hq => hclean q (List.mem_cons_of_mem r0 hq))
    have heq : calculate_returns (r0 :: rest) = pctChangeGo r0 rest := by
      unfold calculate_returns dropnaRows pctChangeRows
      rw [List.filter_cons_of_neg (by simp [hr0ne])]
      exact List.filter_eq_self.mpr hgo
    refine ⟨?_, ?_⟩
    · rw [heq]
      rfl
    · rw [heq, pctChangeGo_length]
      simp

theorem claim_C7_witness :
    calculate_returns [[some (1 : ℚ)], [some 2]] =
      (pctChangeRows [[some (1 : ℚ)], [some 2]]).tail ∧
    (calculate_returns [[some (1 : ℚ)], [some 2]]).length + 1 =
      ([[some (1 : ℚ)], [some 2]] : List (List Cell)).length :=
  claim_C7 [[some 1], [some 2]] 1 (by decide) (by decide) (by decide) (by decide)

theorem lookupWeight_map_const (l : List String) (w : ℚ) (t : String) (h : t ∈ l) :
    lookupWeight (l.map (fun s => (s, w))) t = some w := by
  induction l with
  | nil => cases h
  | cons a rest ih =>
    by_cases hat : (a == t) = true
    · rw [List.map_cons, lookupWeight, List.find?_cons_of_pos _ (by simpa using hat)]
      rfl
    · have hmem : t ∈ rest := by
        rcases List.mem_cons.mp h with rfl | hmem
        · exact absurd (by simp) hat
        · exact hmem
      rw [List.map_cons, lookupWeight, List.find?_cons_of_neg _ (by simpa using hat)]
      exact ih hmem

/-- C6: for a working set of `n` tickers, `equal_weight_portfolio` assigns
exactly `1/n` to each ticker irrespective of any price data, and when the
configured bounds admit `1/n` the assigned weight lies within them. -/
theorem claim_C6 (tickers : List String) (t : String) (lo hi : ℚ)
    (hmem : t ∈ tickers)
    (hlo : lo ≤ 1 / (tickers.length : ℚ)) (hhi : 1 / (tickers.length : ℚ) ≤ hi) :
    lookupWeight (equal_weight_portfolio tickers) t = some (1 / (tickers.length : ℚ)) ∧
    lo ≤ 1 / (tickers.length : ℚ) ∧ 1 / (tickers.length : ℚ) ≤ hi :=
  ⟨lookupWeight_map_const tickers _ t hmem, hlo, hhi⟩

theorem claim_C6_witness :
    lookupWeight (equal_weight_portfolio ["A", "B"]) "A" =
      some (1 / ((["A", "B"] : List String).length : ℚ)) ∧
    (0 : ℚ) ≤ 1 / ((["A", "B"] : List String).length : ℚ) ∧
    1 / ((["A", "B"] : List String).length : ℚ) ≤ 1 :=
  claim_C6 ["A", "B"] "A" 0 1 (by decide) (by norm_num) (by norm_num)

theorem list_zip_self (l : List ℚ) : l.zip l = l.map (fun x => (x, x)) := by
  induction l with
  | nil => rfl
  | cons a rest ih => simp [List.zip_cons_cons, ih]

/-- C5, counterexample: on the non-constant benchmark series `[1, 2]` the
beta-of-self computed as in `get_summary_statistics_table` — `np.cov`
(sample, `ddof=1`) over `np.var` (population, `ddof=0`) — is 2, not 1. -/
theorem claim_C5_counterexample :
    betaOf [1, 2] [1, 2] = 2 ∧ ((2 : ℚ) ≠ 1) ∧ npVar [(1 : ℚ), 2] ≠ 0 := by
  have hvar : npVar [(1 : ℚ), 2] = 1 / 4 := by
    norm_num [npVar, npMean]
  have hcov : npCov [(1 : ℚ), 2] [(1 : ℚ), 2] = 1 / 2 := by
    norm_num [npCov, npMean, List.zip_cons_cons]
  refine ⟨?_, by norm_num, by rw [hvar]; norm_num⟩
  rw [betaOf, if_neg (by rw [hvar]; norm_num), hvar, hcov]
  norm_num

/-- C5, amended: because `np.cov` defaults to the sample normalization
(`n - 1`) while `np.var` defaults to the population normalization (`n`),
beta of a non-constant series against itself is `n / (n - 1)` for `n`
aligned observations — approaching, but never equal to, 1. -/
theorem claim_C5_amended (xs : List ℚ) (h : npVar xs ≠ 0) :
    betaOf xs xs = (xs.length : ℚ) / ((xs.length : ℚ) - 1) := by
  have hvar : npVar xs =
      (xs.map (fun x => (x - npMean xs) ^ 2)).sum / (xs.length : ℚ) := rfl
  have hSne : (xs.map (fun x => (x - npMean xs) ^ 2)).sum ≠ 0 := by
    intro h0
    apply h
    rw [hvar, h0, zero_div]
  have hnne : (xs.length : ℚ) ≠ 0 := by
    intro h0
    apply h
    rw [hvar, h0, div_zero]
  have hcov : npCov xs xs =
      (xs.map (fun x => (x - npMean xs) ^ 2)).sum / ((xs.length : ℚ) - 1) := by
    unfold npCov
    rw [list_zip_self, List.map_map]
    have hfun : ((fun p : ℚ × ℚ => (p.1 - npMean xs) * (p.2 - npMean xs)) ∘
        fun x : ℚ => (x, x)) = (fun x : ℚ => (x - npMean xs) ^ 2) := by
      funext x
      simp only [Function.comp]
      ring
    rw [hfun]
  have hone : xs.length ≠ 1 := by
    intro hlen
    obtain ⟨a, rfl⟩ := List.length_eq_one.mp hlen
    apply hSne
    simp [npMean]
  have hn1 : (xs.length : ℚ) - 1 ≠ 0 := by
    intro h0
    apply hone
    have h1 : (xs.length : ℚ) = 1 := by linarith
    exact_mod_cast h1
  unfold betaOf
  rw [if_neg h, hcov, hvar]
  field_simp
  ring

theorem claim_C5_witness :
    npVar [(1 : ℚ), 2] ≠ 0 ∧
    betaOf [(1 : ℚ), 2] [(1 : ℚ), 2] =
      (([(1 : ℚ), 2].length : ℚ)) / (([(1 : ℚ), 2].length : ℚ) - 1) :=
  ⟨by norm_num [npVar, npMean], claim_C5_amended [1, 2] (by norm_num [npVar, npMean])⟩

/-- C10: `create_weighted_sector_treemap` raises `ValueError` exactly when
some ticker of the cleaned working set has no entry in the supplied weights
mapping; extra tickers in the weights mapping are harmless. -/
theorem claim_C10 (tickers : List String) (table : List (String × String))
    (ws : List (String × ℚ)) :
    create_weighted_sector_treemap tickers table ws = .error .valueError ↔
      ∃ t ∈ tickers, ∀ p ∈ ws, p.1 ≠ t := by
  unfold create_weighted_sector_treemap
  by_cases hb : (tickers.any (fun t => !(ws.any (fun p => p.1 == t)))) = true
  · rw [if_pos hb]
    constructor
    · intro _
      obtain ⟨t, ht, hneg⟩ := List.any_eq_true.mp hb
      refine ⟨t, ht, ?_⟩
      intro p hp
      rw [Bool.not_eq_true'] at hneg
      have hfa := List.any_eq_false.mp hneg p hp
      simpa using hfa
    · intro _
      rfl
  · rw [if_neg hb]
    constructor
    · intro heq
      by_cases he : ((stockRowsRaw tickers table ws).isEmpty) = true
      · rw [if_pos he] at heq
        rw [Except.error.injEq] at heq
        exact PyErr.noConfusion heq
      · rw [if_neg he] at heq
        exact Except.noConfusion heq
    · rintro ⟨t, ht, hall⟩
      exfalso
      apply hb
      refine List.any_eq_true.mpr ⟨t, ht, ?_⟩
      rw [Bool.not_eq_true']
      refine List.any_eq_false.mpr ?_
      intro p hp
      simpa using hall p hp

theorem claim_C10_witness :
    create_weighted_sector_treemap ["A", "B"] [("A", "Tech")] [("A", 1 / 2)] =
      .error .valueError :=
  (claim_C10 ["A", "B"] [("A", "Tech")] [("A", 1 / 2)]).mpr
    ⟨"B", by decide, by decide⟩

theorem stockRowsRaw_mem {tickers : List String} {table : List (String × String)}
    {ws : List (String × ℚ)} {q : String × String × ℚ}
    (hq : q ∈ stockRowsRaw tickers table ws) :
    q.1 ∈ tickers ∧ lookupSector table q.1 = some q.2.1 := by
  obtain ⟨a, ha, hfa⟩ := List.mem_filterMap.mp hq
  split at hfa
  · exact Option.noConfusion hfa
  · next s hls =>
    split at hfa
    · injection hfa with h
      rw [← h]
      exact ⟨ha, hls⟩
    · exact Option.noConfusion hfa

theorem sectorRows_weightN {rows : List (String × String × ℚ)} {r : TreemapRow}
    (hr : r ∈ sectorRows rows) : r.weightN = none := by
  obtain ⟨s, _, hfs⟩ := List.mem_filterMap.mp hr
  split at hfs
  · injection hfs with h
    rw [← h]
  · exact Option.noConfusion hfs

/-- C9, amended: a ticker without a reference-table entry does not make
`create_weighted_sector_treemap` raise — the per-ticker lookup failure is
caught, printed and the ticker is silently skipped, so (provided every
working-set ticker has a weight and at least one ticker has both a sector
entry and a material weight) the call succeeds and the missing ticker is
simply absent from the stock-level rows of the treemap. -/
theorem claim_C9_amended (tickers : List String) (table : List (String × String))
    (ws : List (String × ℚ)) (t0 t : String)
    (hw : ∀ u ∈ tickers, ∃ p ∈ ws, p.1 = u)
    (ht0 : t0 ∈ tickers) (hs0 : (lookupSector table t0).isSome = true)
    (hw0 : 1 / 10000 ≤ weightsGet ws t0)
    (ht : t ∈ tickers) (hmiss : lookupSector table t = none) :
    create_weighted_sector_treemap tickers table ws =
      .ok (okRows (create_weighted_sector_treemap tickers table ws)) ∧
    ((okRows (create_weighted_sector_treemap tickers table ws)).filter
        (fun r => r.weightN.isSome)).all (fun r => !(r.name == t)) = true := by
  obtain ⟨s0, hs0eq⟩ := Option.isSome_iff_exists.mp hs0
  have hmem0 : (t0, s0, weightsGet ws t0) ∈ stockRowsRaw tickers table ws := by
    refine List.mem_filterMap.mpr ⟨t0, ht0, ?_⟩
    simp only [hs0eq]
    rw [if_pos hw0]
  have hbfalse : ¬ ((tickers.any (fun u => !(ws.any (fun p => p.1 == u)))) = true) := by
    intro hb
    obtain ⟨u, hu, hneg⟩ := List.any_eq_true.mp hb
    rw [Bool.not_eq_true'] at hneg
    obtain ⟨p, hp, hpu⟩ := hw u hu
    have := List.any_eq_false.mp hneg p hp
    simp [hpu] at this
  have hefalse : ¬ (((stockRowsRaw tickers table ws).isEmpty) = true) := by
    intro he
    rw [List.isEmpty_iff] at he
    rw [he] at hmem0
    exact List.not_mem_nil _ hmem0
  have hres : create_weighted_sector_treemap tickers table ws =
      .ok (sectorRows (stockRowsRaw tickers table ws) ++
        stockRows (stockRowsRaw tickers table ws)) := by
    unfold create_weighted_sector_treemap
    rw [if_neg hbfalse, if_neg hefalse]
  refine ⟨by rw [hres]; rfl, ?_⟩
  rw [hres]
  simp only [okRows]
  rw [List.filter_append, List.all_append, Bool.and_eq_true]
  constructor
  · rw [List.all_eq_true]
    intro r hr
    obtain ⟨hrs, hsome⟩ := List.mem_filter.mp hr
    rw [sectorRows_weightN hrs] at hsome
    exact Bool.noConfusion hsome
  · rw [List.all_eq_true]
    intro r hr
    obtain ⟨hrs, _⟩ := List.mem_filter.mp hr
    obtain ⟨q, hq, hqr⟩ := List.mem_map.mp hrs
    obtain ⟨hqt, hqs⟩ := stockRowsRaw_mem hq
    have hname : r.name = q.1 := by rw [← hqr]
    rw [Bool.not_eq_eq_eq_not, Bool.not_true, beq_eq_false_iff_ne]
    intro hneq
    rw [hname] at hneq
    rw [hneq, hmiss] at hqs
    exact Option.noConfusion hqs

/-- C9, counterexample: ticker `"B"` has no entry in the reference table, yet
the sector aggregation does not raise — it returns the treemap rows with
`"B"` silently dropped, contradicting the claimed domain error. -/
theorem claim_C9_counterexample :
    lookupSector [("A", "Tech")] "B" = none ∧
    create_weighted_sector_treemap ["A", "B"] [("A", "Tech")]
        [("A", 1 / 2), ("B", 1 / 2)] =
      .ok [⟨"Tech", "Portfolio", 1 / 2, none⟩, ⟨"A", "Tech", 1 / 2, some 100⟩] := by
  refine ⟨rfl, ?_⟩
  simp [create_weighted_sector_treemap, stockRowsRaw, lookupSector, weightsGet,
    sectorRows, stockRows, sectorKeys, sectorSum, List.find?, List.filterMap,
    List.filter, List.isEmpty]
  norm_num [List.filterMap_cons, List.filter]

theorem claim_C9_witness :
    create_weighted_sector_treemap ["A", "B"] [("A", "Tech")]
        [("A", 1 / 2), ("B", 1 / 2)] =
      .ok (okRows (create_weighted_sector_treemap ["A", "B"] [("A", "Tech")]
        [("A", 1 / 2), ("B", 1 / 2)])) ∧
    ((okRows (create_weighted_sector_treemap ["A", "B"] [("A", "Tech")]
        [("A", 1 / 2), ("B", 1 / 2)])).filter
        (fun r => r.weightN.isSome)).all (fun r => !(r.name == "B")) = true :=
  claim_C9_amended ["A", "B"] [("A", "Tech")] [("A", 1 / 2), ("B", 1 / 2)] "A" "B"
    (by decide) (by decide) (by decide)
    (by norm_num [weightsGet, List.find?]) (by decide) (by decide)

/-- C4: for any views matrix `P` and outcome vector `Q` whose uncertainty
combination `PτΣPᵗ + Ω` is invertible, the (spec-modelled) Black-Litterman
strategy produces its weight vector by feeding the MaximumSharpe machinery the
adjusted return vector `μ' = μ + τΣPᵗ·u`, where `u` solves
`(PτΣPᵗ + Ω)·u = Q − Pπ` with `π = τ·Σ·μ`. -/
theorem claim_C4 (n k : ℕ) (solver : (Fin n → ℚ) → Fin n → ℚ)
    (μ : Fin n → ℚ) (S : Matrix (Fin n) (Fin n) ℚ) (P : Matrix (Fin k) (Fin n) ℚ)
    (Q : Fin k → ℚ) (τ : ℚ) (Ω : Matrix (Fin k) (Fin k) ℚ)
    (hdet : (blUncertainty τ S P Ω).det ≠ 0) :
    ∃ u : Fin k → ℚ,
      (blUncertainty τ S P Ω).mulVec u = Q - P.mulVec (τ • S.mulVec μ) ∧
      black_litterman_model solver μ S P Q τ Ω =
        solver (μ + (τ • (S * P.transpose)).mulVec u) := by
  refine ⟨(blInv (blUncertainty τ S P Ω)).mulVec
    (Q - P.mulVec (τ • S.mulVec μ)), ?_, rfl⟩
  rw [Matrix.mulVec_mulVec]
  have hM : blUncertainty τ S P Ω * blInv (blUncertainty τ S P Ω) = 1 := by
    unfold blInv
    rw [Matrix.mul_smul, Matrix.mul_adjugate, smul_smul,
      inv_mul_cancel₀ hdet, one_smul]
  rw [hM, Matrix.one_mulVec]

theorem claim_C4_witness :
    ∃ u : Fin 1 → ℚ,
      (blUncertainty 1 (1 : Matrix (Fin 1) (Fin 1) ℚ)
        (1 : Matrix (Fin 1) (Fin 1) ℚ) (1 : Matrix (Fin 1) (Fin 1) ℚ)).mulVec u =
        (fun _ => 1) - (1 : Matrix (Fin 1) (Fin 1) ℚ).mulVec
          ((1 : ℚ) • (1 : Matrix (Fin 1) (Fin 1) ℚ).mulVec (fun _ => 0)) ∧
      black_litterman_model id (fun _ => 0) (1 : Matrix (Fin 1) (Fin 1) ℚ)
          (1 : Matrix (Fin 1) (Fin 1) ℚ) (fun _ => 1) 1
          (1 : Matrix (Fin 1) (Fin 1) ℚ) =
        id ((fun _ => 0) + ((1 : ℚ) • ((1 : Matrix (Fin 1) (Fin 1) ℚ) *
          (1 : Matrix (Fin 1) (Fin 1) ℚ).transpose)).mulVec u) :=
  claim_C4 1 1 id (fun _ => 0) 1 1 (fun _ => 1) 1 1 (by
    have h : blUncertainty (1 : ℚ) (1 : Matrix (Fin 1) (Fin 1) ℚ)
        (1 : Matrix (Fin 1) (Fin 1) ℚ) (1 : Matrix (Fin 1) (Fin 1) ℚ) = 1 + 1 := by
      unfold blUncertainty
      simp
    rw [h, Matrix.det_fin_one]
    norm_num [Matrix.add_apply, Matrix.one_apply])
